import Mathlib

/-!
Shallow embedding of the `binvec` crate: a fixed-length, bit-packed boolean
array `Binvec<L, N>` backed by a byte buffer `[u8; N]`, together with its
sequential iterator `BinvecIter`, its error type `IndexOutOfBounds`, the
`binvec!` construction macro and the `Display` rendering.

Machine bytes are modelled as `Nat` values; every byte produced by the
operations stays below 256 (the `u8` range), which is tracked by the
predicate `Binvec.bytesWf`.  A byte-array access that would fault at run
time (index outside the buffer) is modelled by `Option`: `none` is the
fault.  Mutating methods (`&mut self` in the source) are modelled by
explicit state passing: they return the new container.
-/

/-- Rust `u8::count_ones`: the number of set bits among the 8 bit positions of a
byte. -/
def byteCountOnes (byte : Nat) : Nat :=
  ((List.range 8).filter (fun i => byte.testBit i)).length

/-- Rust `u8::count_zeros`: the number of clear bits among the 8 bit positions of
a byte (`8 - count_ones`). -/
def byteCountZeros (byte : Nat) : Nat :=
  8 - byteCountOnes byte

/-- From `src/error.rs`: `pub struct IndexOutOfBounds;` — the single error kind. -/
inductive IndexOutOfBounds : Type
  | mk : IndexOutOfBounds
deriving DecidableEq

/-- From `src/error.rs`: the `Display` implementation for `IndexOutOfBounds`. -/
def IndexOutOfBounds.description : String :=
  "index out of bounds"

/-- From `src/lib.rs`:
`pub struct Binvec<const L: usize, const N: usize> { inner: [u8; N] }`.
The backing buffer is a list of byte values whose length is the const
generic `N`. -/
structure Binvec (L N : Nat) : Type where
  inner : List Nat
  h_len : inner.length = N

instance {L N : Nat} : DecidableEq (Binvec L N) := fun a b =>
  if h : a.inner = b.inner then
    .isTrue (by cases a; cases b; simp only at h; subst h; rfl)
  else
    .isFalse (fun hh => h (congrArg Binvec.inner hh))

namespace Binvec

variable {L N : Nat}

/-- Method `Binvec::len` (src/lib.rs:96): returns the const generic `L`. -/
def len (_ : Binvec L N) : Nat :=
  L

/-- Method `Binvec::get_unchecked` (src/lib.rs:125): reads the byte at
`index >> 3` and extracts bit `index & 0b111`; `none` models the runtime
fault when the byte index is outside the buffer. -/
def get_unchecked (self : Binvec L N) (index : Nat) : Option Bool :=
  let byte_index : Nat := index >>> 3
  let bit_offset : Nat := index &&& 7
  match self.inner[byte_index]? with
  | some byte => some (((byte >>> bit_offset) &&& 1) != 0)
  | none => none

/-- Method `Binvec::get` (src/lib.rs:154): bounds-checked read; `none` when
`index >= L`. -/
def get (self : Binvec L N) (index : Nat) : Option Bool :=
  if index < L then
    self.get_unchecked index
  else
    none

/-- Method `Binvec::set_unchecked` (src/lib.rs:183): read-modify-write on the byte
at `index >> 3`: OR with the single-bit mask to set, AND with the mask's
complement (`!mask` on `u8`, i.e. `mask ^^^ 255`) to clear; `none` models
the runtime fault when the byte index is outside the buffer. -/
def set_unchecked (self : Binvec L N) (index : Nat) (value : Bool) :
    Option (Binvec L N) :=
  let byte_index : Nat := index >>> 3
  let bit_offset : Nat := index &&& 7
  let mask : Nat := 1 <<< bit_offset
  match self.inner[byte_index]? with
  | some byte =>
    some ⟨self.inner.set byte_index
            (if value then byte ||| mask else byte &&& (mask ^^^ 255)),
          by rw [List.length_set]; exact self.h_len⟩
  | none => none

/-- Method `Binvec::set` (src/lib.rs:220): bounds-checked write.  Returns the new
container state together with `Ok(())`, or the unchanged container together
with `Err(IndexOutOfBounds)` when `index >= L`. -/
def set (self : Binvec L N) (index : Nat) (value : Bool) :
    Binvec L N × Except IndexOutOfBounds Unit :=
  if index < L then
    ((self.set_unchecked index value).getD self, Except.ok ())
  else
    (self, Except.error IndexOutOfBounds.mk)

/-- Method `Binvec::fill` (src/lib.rs:248): rebuilds the buffer as `[byte; N]`
with `byte = 0xFF` or `0x00`, then, when `L > 0` and `L % 8 != 0`, masks
the final byte with `(1 << (L % 8)) - 1` to clear the padding bits. -/
def fill (_self : Binvec L N) (value : Bool) : Binvec L N :=
  let byte : Nat := if value then 0xFF else 0x00
  if L > 0 ∧ L % 8 ≠ 0 then
    ⟨(List.replicate N byte).set (N - 1)
        (((List.replicate N byte).getD (N - 1) 0) &&& ((1 <<< (L % 8)) - 1)),
     by simp⟩
  else
    ⟨List.replicate N byte, by simp⟩

/-- Method `Binvec::new` (src/lib.rs:74): starts from `[0x00; N]` and fills with
the initial value. -/
def new (initial_value : Bool) : Binvec L N :=
  (Binvec.mk (List.replicate N 0x00) (by simp)).fill initial_value

/-- Method `Binvec::count_ones` (src/lib.rs:279): sums `u8::count_ones` over every
byte of the buffer. -/
def count_ones (self : Binvec L N) : Nat :=
  (self.inner.map byteCountOnes).sum

/-- Method `Binvec::count_zeros` (src/lib.rs:308): sums `u8::count_zeros` over
every byte, then subtracts the `N * 8 - L` padding bits. -/
def count_zeros (self : Binvec L N) : Nat :=
  (self.inner.map byteCountZeros).sum - (N * 8 - L)

/-- Method `Binvec::is_all_one` (src/lib.rs:339): `count_ones() == L`. -/
def is_all_one (self : Binvec L N) : Bool :=
  self.count_ones == L

/-- Method `Binvec::is_all_zero` (src/lib.rs:364): `count_zeros() == L`. -/
def is_all_zero (self : Binvec L N) : Bool :=
  self.count_zeros == L

end Binvec

/-- The `binvec!` macro (src/lib.rs:422): derives `N = (L + 7) >> 3` and
calls `Binvec::new`. -/
def binvecM (L : Nat) (initial_value : Bool) : Binvec L ((L + 7) >>> 3) :=
  Binvec.new initial_value

/-- From `src/iter.rs`: `pub struct BinvecIter<'a, const L, const N> { binvec:
&'a Binvec<L, N>, index: usize }`. -/
structure BinvecIter (L N : Nat) : Type where
  binvec : Binvec L N
  index : Nat

namespace BinvecIter

variable {L N : Nat}

/-- Method `BinvecIter::new` (src/iter.rs:36): cursor starts at 0. -/
def new (binvec : Binvec L N) : BinvecIter L N :=
  ⟨binvec, 0⟩

/-- Method `BinvecIter::next` (src/iter.rs:46): while `index < L`, reads the bit at
the cursor via the unchecked read, advances the cursor and yields the bit;
otherwise yields `none` and leaves the cursor unchanged.  The inner `none`
case is the (unreachable for well-formed `N`) unchecked-read fault. -/
def next (self : BinvecIter L N) : Option Bool × BinvecIter L N :=
  if self.index < L then
    match self.binvec.get_unchecked self.index with
    | some bit => (some bit, { self with index := self.index + 1 })
    | none => (none, self)
  else
    (none, self)

/-- Runs `next` a given number of times, collecting the yielded values and
the final iterator state (the verification driver for iteration claims). -/
def steps (self : BinvecIter L N) : Nat → List (Option Bool) × BinvecIter L N
  | 0 => ([], self)
  | n + 1 =>
    let r := self.next
    let rest := r.2.steps n
    (r.1 :: rest.1, rest.2)

end BinvecIter

namespace Binvec

variable {L N : Nat}

/-- Method `Binvec::iter` (src/lib.rs:386). -/
def iter (self : Binvec L N) : BinvecIter L N :=
  BinvecIter.new self

end Binvec

/-- The `for bit in iter` loop of the `Display` implementation
(src/lib.rs:440): keeps calling `next`, appending `", 1"` or `", 0"`, until
the iterator is exhausted. -/
def BinvecIter.fmtRest {L N : Nat} (self : BinvecIter L N) : String :=
  if _h : self.index < L then
    match self.binvec.get_unchecked self.index with
    | some bit =>
      ", " ++ (if bit then "1" else "0")
        ++ BinvecIter.fmtRest { self with index := self.index + 1 }
    | none => ""
  else
    ""
termination_by L - self.index
decreasing_by omega

/-- The `Display` implementation for `Binvec` (src/lib.rs:434): `"["`, then
the first bit (when any) followed by the `", "`-separated rest, then `"]"`. -/
def Binvec.display {L N : Nat} (self : Binvec L N) : String :=
  let iter := self.iter
  let first := iter.next
  match first with
  | (some bit, it) => "[" ++ (if bit then "1" else "0") ++ it.fmtRest ++ "]"
  | (none, _) => "[" ++ "]"

namespace Binvec

variable {L N : Nat}

/-- Bit `i` of the raw byte buffer: bit `i % 8` of byte `i / 8` (0 when the
byte index is outside the buffer).  This is the specification-level view of
the buffer contents. -/
def bitAt (self : Binvec L N) (i : Nat) : Bool :=
  (self.inner.getD (i / 8) 0).testBit (i % 8)

/-- The padding-bit invariant: every buffer bit at position `>= L` is 0. -/
def padOk (self : Binvec L N) : Prop :=
  ∀ i < N * 8, L ≤ i → self.bitAt i = false

/-- Every stored byte is in the `u8` range. -/
def bytesWf (self : Binvec L N) : Prop :=
  ∀ x ∈ self.inner, x < 256

/-- Containers reachable through the public interface: built by the
`binvec!` macro (so `N = (L + 7) >> 3`) and mutated only by the
bounds-checked `set` and by `fill`. -/
inductive Reachable (L : Nat) : Binvec L ((L + 7) >>> 3) → Prop
  | init (v : Bool) : Reachable L (binvecM L v)
  | set (b : Binvec L ((L + 7) >>> 3)) (i : Nat) (v : Bool) :
      Reachable L b → Reachable L (b.set i v).1
  | fill (b : Binvec L ((L + 7) >>> 3)) (v : Bool) :
      Reachable L b → Reachable L (b.fill v)

/-- Rendering as the specification words it: a bracketed, comma-separated
sequence of 0/1 characters in ascending index order. -/
def displaySpec (self : Binvec L N) : String :=
  "[" ++ String.intercalate ", "
      ((List.range L).map (fun k => if self.bitAt k then "1" else "0")) ++ "]"

end Binvec

instance {L N : Nat} (b : Binvec L N) : Decidable b.padOk :=
  inferInstanceAs (Decidable (∀ i < N * 8, L ≤ i → b.bitAt i = false))

instance {L N : Nat} (b : Binvec L N) : Decidable b.bytesWf :=
  inferInstanceAs (Decidable (∀ x ∈ b.inner, x < 256))

example : (binvecM 12 true).count_ones = 12 := by decide
example : (binvecM 10 true).count_ones = 10 := by decide
example : (binvecM 10 true).inner = [255, 3] := by decide
example : ((binvecM 12 false).set 3 true).1.get 3 = some true := by decide
example : ((binvecM 12 false).set 3 true).1.get 5 = some false := by decide
example : (binvecM 0 false).display = "[]" := by rfl
example : (binvecM 3 true).displaySpec = "[1, 1, 1]" := by rfl
example : (binvecM 10 true).padOk := by decide
example : ((binvecM 12 false).iter.steps 3).1 = [some false, some false, some false] := by decide

theorem ceil8_eq (L : Nat) : (L + 7) >>> 3 = (L + 7) / 8 := by
  simp [Nat.shiftRight_eq_div_pow]

theorem shiftRight3_eq (i : Nat) : i >>> 3 = i / 8 := by
  simp [Nat.shiftRight_eq_div_pow]

theorem and7_eq (i : Nat) : i &&& 7 = i % 8 := by
  have h := Nat.and_pow_two_sub_one_eq_mod i 3
  norm_num at h
  exact h

theorem bitExtract_eq (byte off : Nat) :
    (((byte >>> off) &&& 1) != 0) = byte.testBit off := by
  simp [Nat.testBit, Nat.and_comm]

namespace Binvec

variable {L N : Nat}

theorem get_unchecked_eq (b : Binvec L N) (i : Nat) (h : i / 8 < N) :
    b.get_unchecked i = some (b.bitAt i) := by
  have hlen : i >>> 3 < b.inner.length := by
    rw [b.h_len, shiftRight3_eq]; exact h
  simp only [get_unchecked, List.getElem?_eq_getElem hlen]
  simp only [bitExtract_eq, and7_eq, bitAt, shiftRight3_eq]
  congr 1
  rw [List.getD_eq_getElem?_getD,
      List.getElem?_eq_getElem (by rw [← shiftRight3_eq]; exact hlen)]
  simp [shiftRight3_eq]

theorem get_unchecked_fault (b : Binvec L N) (i : Nat) (h : N ≤ i / 8) :
    b.get_unchecked i = none := by
  have hlen : b.inner.length ≤ i >>> 3 := by
    rw [b.h_len, shiftRight3_eq]; exact h
  simp only [get_unchecked, List.getElem?_eq_none hlen]

theorem get_eq_bitAt (b : Binvec L N) (i : Nat) (hi : i < L) (h : i / 8 < N) :
    b.get i = some (b.bitAt i) := by
  simp only [get, if_pos hi, get_unchecked_eq b i h]

theorem set_unchecked_isSome (b : Binvec L N) (i : Nat) (v : Bool)
    (h : i / 8 < N) : (b.set_unchecked i v).isSome := by
  have hlen : i >>> 3 < b.inner.length := by
    rw [b.h_len, shiftRight3_eq]; exact h
  simp only [set_unchecked, List.getElem?_eq_getElem hlen]
  rfl

theorem bitAt_set_unchecked (b : Binvec L N) (i : Nat) (v : Bool)
    (h : i / 8 < N) (j : Nat) :
    ((b.set_unchecked i v).getD b).bitAt j = if j = i then v else b.bitAt j := by
  have hlen : i >>> 3 < b.inner.length := by
    rw [b.h_len, shiftRight3_eq]; exact h
  have hlen8 : i / 8 < b.inner.length := by rw [← shiftRight3_eq]; exact hlen
  simp only [set_unchecked, List.getElem?_eq_getElem hlen, Option.getD_some]
  simp only [bitAt, shiftRight3_eq, and7_eq]
  rw [List.getD_eq_getElem?_getD, List.getD_eq_getElem?_getD,
      List.getElem?_set]
  by_cases hbyte : i / 8 = j / 8
  · rw [if_pos hbyte, if_pos hlen8, Option.getD_some]
    have hbv : b.inner[j / 8]? = some (b.inner.get ⟨i / 8, hlen8⟩) := by
      rw [← hbyte]
      rw [List.getElem?_eq_getElem hlen8]
      simp
    rw [hbv, Option.getD_some]
    have h255 : (255 : Nat) = 2 ^ 8 - 1 := by norm_num
    have hone : (1 : Nat) <<< (i % 8) = 2 ^ (i % 8) := by
      rw [Nat.shiftLeft_eq, one_mul]
    have hk : j % 8 < 8 := Nat.mod_lt _ (by norm_num)
    by_cases hij : j = i
    · subst hij
      rw [if_pos rfl]
      cases v
      · rw [if_neg (by simp)]
        rw [Nat.testBit_and, Nat.testBit_xor, hone, h255,
            Nat.testBit_two_pow, Nat.testBit_two_pow_sub_one]
        simp [hk]
      · rw [if_pos rfl]
        rw [Nat.testBit_or, hone, Nat.testBit_two_pow]
        simp
    · rw [if_neg hij]
      have hmod : ¬(i % 8 = j % 8) := by omega
      cases v
      · rw [if_neg (by simp)]
        rw [Nat.testBit_and, Nat.testBit_xor, hone, h255,
            Nat.testBit_two_pow, Nat.testBit_two_pow_sub_one]
        simp [hk, hmod]
      · rw [if_pos rfl]
        rw [Nat.testBit_or, hone, Nat.testBit_two_pow]
        simp [hmod]
  · rw [if_neg hbyte]
    have hij : ¬(j = i) := by omega
    rw [if_neg hij]

theorem set_ok (b : Binvec L N) (i : Nat) (v : Bool) (hi : i < L) :
    b.set i v = ((b.set_unchecked i v).getD b, Except.ok ()) := by
  simp only [set, if_pos hi]

theorem set_oob (b : Binvec L N) (i : Nat) (v : Bool) (hi : L ≤ i) :
    b.set i v = (b, Except.error IndexOutOfBounds.mk) := by
  simp only [set, if_neg (Nat.not_lt.mpr hi)]

theorem bitAt_set (b : Binvec L N) (i : Nat) (v : Bool)
    (hi : i < L) (h : i / 8 < N) (j : Nat) :
    (b.set i v).1.bitAt j = if j = i then v else b.bitAt j := by
  rw [set_ok b i v hi]
  exact bitAt_set_unchecked b i v h j

@[simp] theorem mk_inner (l : List Nat) (h : l.length = N) :
    (Binvec.mk l h : Binvec L N).inner = l :=
  rfl

theorem testBit255 (k : Nat) (hk : k < 8) : (255 : Nat).testBit k = true := by
  have h : (255 : Nat) = 2 ^ 8 - 1 := by norm_num
  rw [h, Nat.testBit_two_pow_sub_one]
  simpa using hk

theorem bitAt_fill (b : Binvec L N) (v : Bool) (hN : N = (L + 7) >>> 3)
    (j : Nat) : (b.fill v).bitAt j = (v && decide (j < L)) := by
  have hN' : N = (L + 7) / 8 := by rw [hN, ceil8_eq]
  have hk : j % 8 < 8 := Nat.mod_lt _ (by norm_num)
  simp only [fill]
  by_cases hcond : L > 0 ∧ L % 8 ≠ 0
  · rw [if_pos hcond]
    have hN1 : N - 1 < N := by omega
    simp only [bitAt, mk_inner]
    have hrep : (List.replicate N (if v = true then 0xFF else 0x00)
        : List Nat).getD (N - 1) 0 = (if v = true then 0xFF else 0x00) := by
      rw [List.getD_eq_getElem?_getD, List.getElem?_replicate, if_pos hN1,
          Option.getD_some]
    rw [hrep, List.getD_eq_getElem?_getD, List.getElem?_set]
    have hone : (1 : Nat) <<< (L % 8) = 2 ^ (L % 8) := by
      rw [Nat.shiftLeft_eq, one_mul]
    by_cases hlast : N - 1 = j / 8
    · rw [if_pos hlast, if_pos (by simp [List.length_replicate]; omega),
          Option.getD_some, hone]
      cases v
      · simp [Nat.testBit_and]
      · rw [if_pos rfl, Nat.testBit_and, Nat.testBit_two_pow_sub_one,
            testBit255 _ hk, Bool.true_and, Bool.true_and,
            decide_eq_decide]
        omega
    · rw [if_neg hlast, List.getElem?_replicate]
      by_cases hj : j / 8 < N
      · rw [if_pos hj, Option.getD_some]
        have hjL : j < L := by omega
        cases v
        · simp
        · simp [testBit255 _ hk, hjL]
      · rw [if_neg hj, Option.getD_none]
        have hjL : ¬(j < L) := by omega
        simp [hjL]
  · rw [if_neg hcond]
    simp only [bitAt, mk_inner]
    rw [List.getD_eq_getElem?_getD, List.getElem?_replicate]
    by_cases hj : j / 8 < N
    · rw [if_pos hj, Option.getD_some]
      have hjL : j < L := by omega
      cases v
      · simp
      · simp [testBit255 _ hk, hjL]
    · rw [if_neg hj, Option.getD_none]
      have hjL : ¬(j < L) := by omega
      simp [hjL]

theorem bitAt_new (v : Bool) (hN : N = (L + 7) >>> 3) (j : Nat) :
    (Binvec.new v : Binvec L N).bitAt j = (v && decide (j < L)) :=
  bitAt_fill _ v hN j

theorem bitAt_binvecM (Len : Nat) (v : Bool) (j : Nat) :
    (binvecM Len v).bitAt j = (v && decide (j < Len)) :=
  bitAt_new v rfl j

end Binvec

theorem byteCountOnes_eq_countP (b : Nat) :
    byteCountOnes b = List.countP (fun i => b.testBit i) (List.range 8) := by
  rw [byteCountOnes, List.countP_eq_length_filter]

theorem byteCountOnes_le (b : Nat) : byteCountOnes b ≤ 8 := by
  rw [byteCountOnes_eq_countP]
  calc List.countP (fun i => b.testBit i) (List.range 8)
      ≤ (List.range 8).length := List.countP_le_length _
    _ = 8 := by simp

theorem sum_map_byteCountOnes (l : List Nat) :
    (l.map byteCountOnes).sum
      = List.countP (fun i => (l.getD (i / 8) 0).testBit (i % 8))
          (List.range (8 * l.length)) := by
  induction l with
  | nil => simp
  | cons b t ih =>
    have h8 : 8 * (b :: t).length = 8 + 8 * t.length := by
      simp [List.length_cons]; ring
    have h1 : List.countP (fun i => ((b :: t).getD (i / 8) 0).testBit (i % 8))
        (List.range 8) = byteCountOnes b := by
      rw [byteCountOnes_eq_countP]
      refine List.countP_congr ?_
      intro x hx
      have hx8 : x < 8 := List.mem_range.mp hx
      have hd : x / 8 = 0 := by omega
      have hm : x % 8 = x := by omega
      rw [hd, hm, List.getD_cons_zero]
    have h2 : List.countP
        ((fun i => ((b :: t).getD (i / 8) 0).testBit (i % 8))
          ∘ (fun x => 8 + x)) (List.range (8 * t.length))
        = List.countP (fun i => (t.getD (i / 8) 0).testBit (i % 8))
            (List.range (8 * t.length)) := by
      refine List.countP_congr ?_
      intro x hx
      simp only [Function.comp]
      have hd : (8 + x) / 8 = x / 8 + 1 := by omega
      have hm : (8 + x) % 8 = x % 8 := by omega
      rw [hd, hm, List.getD_cons_succ]
    rw [h8, List.range_add, List.countP_append, h1]
    simp only [List.map_cons, List.sum_cons]
    congr 1
    rw [ih, List.countP_map]
    exact h2.symm

theorem sum_map_byteCountOnes_le (l : List Nat) :
    (l.map byteCountOnes).sum ≤ 8 * l.length := by
  induction l with
  | nil => simp
  | cons b t ih =>
    simp only [List.map_cons, List.sum_cons, List.length_cons]
    have h := byteCountOnes_le b
    omega

theorem sum_map_byteCountZeros (l : List Nat) :
    (l.map byteCountZeros).sum = 8 * l.length - (l.map byteCountOnes).sum := by
  induction l with
  | nil => simp
  | cons b t ih =>
    simp only [List.map_cons, List.sum_cons, List.length_cons, ih,
      byteCountZeros]
    have h1 := byteCountOnes_le b
    have h2 := sum_map_byteCountOnes_le t
    omega

namespace Binvec

variable {L N : Nat}

theorem count_ones_eq_countP (b : Binvec L N) :
    b.count_ones = List.countP (fun i => b.bitAt i) (List.range (8 * N)) := by
  rw [count_ones, sum_map_byteCountOnes, b.h_len]
  rfl

theorem count_ones_le_of_padOk (b : Binvec L N) (hpad : b.padOk) :
    b.count_ones ≤ L := by
  rw [count_ones_eq_countP]
  by_cases hL : 8 * N ≤ L
  · calc List.countP (fun i => b.bitAt i) (List.range (8 * N))
        ≤ (List.range (8 * N)).length := List.countP_le_length _
      _ ≤ L := by simpa using hL
  · have hsplit : 8 * N = L + (8 * N - L) := by omega
    rw [hsplit, List.range_add, List.countP_append, List.countP_map]
    have h2 : List.countP ((fun i => b.bitAt i) ∘ (fun x => L + x))
        (List.range (8 * N - L)) = 0 := by
      refine List.countP_eq_zero.mpr ?_
      intro a ha
      have ha' : a < 8 * N - L := List.mem_range.mp ha
      simp only [Function.comp]
      rw [hpad (L + a) (by omega) (by omega)]
      simp
    rw [h2]
    have h3 : List.countP (fun i => b.bitAt i) (List.range L)
        ≤ (List.range L).length := List.countP_le_length _
    simp only [List.length_range] at h3
    omega

theorem count_zeros_eq (b : Binvec L N) (hle : b.count_ones ≤ L)
    (hLN : L ≤ 8 * N) : b.count_zeros = L - b.count_ones := by
  rw [count_zeros, sum_map_byteCountZeros, b.h_len]
  change 8 * N - b.count_ones - (N * 8 - L) = L - b.count_ones
  omega

theorem padOk_fill (b : Binvec L N) (v : Bool) (hN : N = (L + 7) >>> 3) :
    (b.fill v).padOk := by
  intro i _ hLi
  rw [bitAt_fill b v hN]
  simp [Nat.not_lt.mpr hLi]

theorem padOk_set_unchecked (b : Binvec L N) (i : Nat) (v : Bool)
    (h : i / 8 < N) (hiL : i < L) (hpad : b.padOk) :
    ((b.set_unchecked i v).getD b).padOk := by
  intro j hj hLj
  rw [bitAt_set_unchecked b i v h j, if_neg (by omega)]
  exact hpad j hj hLj

theorem padOk_set (b : Binvec L N) (i : Nat) (v : Bool)
    (hN : N = (L + 7) >>> 3) (hpad : b.padOk) : (b.set i v).1.padOk := by
  have hN' : N = (L + 7) / 8 := by rw [hN, ceil8_eq]
  by_cases hi : i < L
  · rw [set_ok b i v hi]
    exact padOk_set_unchecked b i v (by omega) hi hpad
  · rw [set_oob b i v (Nat.not_lt.mp hi)]
    exact hpad

theorem reachable_padOk {b : Binvec L ((L + 7) >>> 3)}
    (h : Reachable L b) : b.padOk := by
  induction h with
  | init v =>
    intro j _ hLj
    rw [bitAt_binvecM]
    simp [Nat.not_lt.mpr hLj]
  | set b i v _ ih => exact padOk_set b i v rfl ih
  | fill b v _ _ => exact padOk_fill b v rfl

theorem count_ones_fill (b : Binvec L N) (v : Bool)
    (hN : N = (L + 7) >>> 3) :
    (b.fill v).count_ones = if v then L else 0 := by
  have hN' : N = (L + 7) / 8 := by rw [hN, ceil8_eq]
  have hLN : L ≤ 8 * N := by omega
  rw [count_ones_eq_countP]
  cases v
  · simp only [if_neg Bool.false_ne_true]
    refine List.countP_eq_zero.mpr ?_
    intro a _
    rw [bitAt_fill b false hN]
    simp
  · simp only [if_pos rfl]
    have hsplit : 8 * N = L + (8 * N - L) := by omega
    rw [hsplit, List.range_add, List.countP_append, List.countP_map]
    have h1 : List.countP (fun i => (b.fill true).bitAt i) (List.range L)
        = L := by
      have hall : ∀ a ∈ List.range L, (b.fill true).bitAt a = true := by
        intro a ha
        have haL : a < L := List.mem_range.mp ha
        rw [bitAt_fill b true hN]
        simp [haL]
      calc List.countP (fun i => (b.fill true).bitAt i) (List.range L)
          = List.countP (fun _ => true) (List.range L) :=
            List.countP_congr (by intro x hx; simp [hall x hx])
        _ = L := by simp [List.countP_true]
    have h2 : List.countP ((fun i => (b.fill true).bitAt i) ∘ (fun x => L + x))
        (List.range (8 * N - L)) = 0 := by
      refine List.countP_eq_zero.mpr ?_
      intro a _
      simp only [Function.comp]
      rw [bitAt_fill b true hN]
      simp
    rw [h1, h2]
    simp

theorem count_zeros_fill (b : Binvec L N) (v : Bool)
    (hN : N = (L + 7) >>> 3) :
    (b.fill v).count_zeros = if v then 0 else L := by
  have hN' : N = (L + 7) / 8 := by rw [hN, ceil8_eq]
  have hLN : L ≤ 8 * N := by omega
  have hpad := padOk_fill b v hN
  have hle := count_ones_le_of_padOk _ hpad
  rw [count_zeros_eq _ hle hLN, count_ones_fill b v hN]
  cases v <;> simp

theorem iter_next_lt (b : Binvec L N) (k : Nat) (hk : k < L)
    (hdiv : k / 8 < N) :
    (BinvecIter.mk b k).next = (some (b.bitAt k), BinvecIter.mk b (k + 1)) := by
  simp only [BinvecIter.next, if_pos hk, get_unchecked_eq b k hdiv]

theorem iter_next_exhausted (it : BinvecIter L N) (h : L ≤ it.index) :
    it.next = (none, it) := by
  simp only [BinvecIter.next, if_neg (Nat.not_lt.mpr h)]

theorem iter_steps_exhausted (it : BinvecIter L N) (h : L ≤ it.index)
    (m : Nat) : it.steps m = (List.replicate m none, it) := by
  induction m with
  | zero => simp [BinvecIter.steps]
  | succ m ih =>
    simp only [BinvecIter.steps, iter_next_exhausted it h, ih,
      List.replicate_succ]

theorem iter_steps_eq (b : Binvec L N) (hN : N = (L + 7) >>> 3) (n : Nat) :
    ∀ k, k + n ≤ L →
      (BinvecIter.mk b k).steps n
        = ((List.range n).map (fun t => some (b.bitAt (k + t))),
           BinvecIter.mk b (k + n)) := by
  have hN' : N = (L + 7) / 8 := by rw [hN, ceil8_eq]
  induction n with
  | zero =>
    intro k _
    simp [BinvecIter.steps]
  | succ n ih =>
    intro k h
    have hk : k < L := by omega
    have hdiv : k / 8 < N := by omega
    simp only [BinvecIter.steps, iter_next_lt b k hk hdiv]
    rw [ih (k + 1) (by omega)]
    rw [List.range_succ_eq_map, List.map_cons, List.map_map]
    have hfun : ((fun t => some (b.bitAt (k + t))) ∘ Nat.succ)
        = (fun t => some (b.bitAt (k + 1 + t))) := by
      funext t
      simp only [Function.comp]
      congr 2
      omega
    rw [hfun]
    have hadd : k + 1 + n = k + (n + 1) := by omega
    rw [hadd]
    simp

end Binvec

theorem string_foldl_append (l : List String) :
    ∀ a : String, List.foldl (fun r s => r ++ s) a l
      = a ++ List.foldl (fun r s => r ++ s) "" l := by
  induction l with
  | nil =>
    intro a
    simp [String.append_empty]
  | cons x xs ih =>
    intro a
    rw [List.foldl_cons, List.foldl_cons, ih (a ++ x), ih ("" ++ x),
        String.empty_append, String.append_assoc]

theorem string_join_cons (s : String) (l : List String) :
    String.join (s :: l) = s ++ String.join l := by
  simp only [String.join, List.foldl_cons]
  rw [string_foldl_append l ("" ++ s), String.empty_append]

theorem intercalate_go_eq (xs : List String) :
    ∀ acc, String.intercalate.go acc ", " xs
      = acc ++ String.join (xs.map (fun x => ", " ++ x)) := by
  induction xs with
  | nil =>
    intro acc
    simp [String.intercalate.go, String.join, String.append_empty]
  | cons x xs ih =>
    intro acc
    simp only [String.intercalate.go]
    rw [ih (acc ++ ", " ++ x), List.map_cons, string_join_cons]
    simp [String.append_assoc]

theorem intercalate_comma_cons (x : String) (xs : List String) :
    String.intercalate ", " (x :: xs)
      = x ++ String.join (xs.map (fun s => ", " ++ s)) := by
  simp only [String.intercalate]
  exact intercalate_go_eq xs x

theorem fmtRest_eq {L N : Nat} (b : Binvec L N) (hN : N = (L + 7) >>> 3)
    (n : Nat) :
    ∀ k, L - k = n →
      (BinvecIter.mk b k).fmtRest
        = String.join ((List.range' k n).map
            (fun i => ", " ++ (if b.bitAt i then "1" else "0"))) := by
  have hN' : N = (L + 7) / 8 := by rw [hN, ceil8_eq]
  induction n with
  | zero =>
    intro k hk
    rw [BinvecIter.fmtRest]
    have hkL : ¬(k < L) := by omega
    simp [hkL, String.join]
  | succ n ih =>
    intro k hk
    have hkL : k < L := by omega
    have hdiv : k / 8 < N := by omega
    rw [BinvecIter.fmtRest]
    simp only [hkL, dite_true, Binvec.get_unchecked_eq b k hdiv]
    rw [ih (k + 1) (by omega)]
    rw [List.range'_succ, List.map_cons, string_join_cons]

theorem display_eq_displaySpec {L N : Nat} (b : Binvec L N)
    (hN : N = (L + 7) >>> 3) : b.display = b.displaySpec := by
  have hN' : N = (L + 7) / 8 := by rw [hN, ceil8_eq]
  by_cases hL : L = 0
  · subst hL
    simp only [Binvec.display, Binvec.iter, BinvecIter.new,
      Binvec.iter_next_exhausted (BinvecIter.mk b 0) (by omega)]
    simp [Binvec.displaySpec, String.intercalate]
  · have hpos : 0 < L := by omega
    have hdiv0 : 0 / 8 < N := by omega
    simp only [Binvec.display, Binvec.iter, BinvecIter.new,
      Binvec.iter_next_lt b 0 hpos hdiv0]
    rw [fmtRest_eq b hN (L - 1) 1 (by omega)]
    rw [Binvec.displaySpec]
    have hL1 : L = (L - 1) + 1 := by omega
    have hrange : List.range L = 0 :: (List.range (L - 1)).map Nat.succ := by
      conv_lhs => rw [hL1]
      exact List.range_succ_eq_map (L - 1)
    rw [hrange, List.map_cons, intercalate_comma_cons, List.map_map,
        List.map_map]
    have hfun : (((fun s => ", " ++ s)
          ∘ (fun k => if b.bitAt k then "1" else "0")) ∘ Nat.succ)
        = ((fun i => ", " ++ (if b.bitAt i then "1" else "0"))
            ∘ (fun x => 1 + x)) := by
      funext t
      simp only [Function.comp]
      have ht : Nat.succ t = 1 + t := by omega
      rw [ht]
    rw [hfun, ← List.map_map, ← List.range'_eq_map_range]
    simp [String.append_assoc]

theorem binvec_ext {L N : Nat} (b1 b2 : Binvec L N)
    (h : b1.inner = b2.inner) : b1 = b2 := by
  cases b1
  cases b2
  simp only at h
  subst h
  rfl

theorem eq_of_get_eq {L N : Nat} (b1 b2 : Binvec L N)
    (h1p : b1.padOk) (h2p : b2.padOk) (h1w : b1.bytesWf) (h2w : b2.bytesWf)
    (h : ∀ i, i < L → b1.get i = b2.get i) : b1 = b2 := by
  apply binvec_ext
  apply List.ext_getElem (by rw [b1.h_len, b2.h_len])
  intro n h₁ h₂
  apply Nat.eq_of_testBit_eq
  intro k
  by_cases hk : k < 8
  · have hn : n < N := by rw [← b1.h_len]; exact h₁
    have hd : (8 * n + k) / 8 = n := by omega
    have hm : (8 * n + k) % 8 = k := by omega
    have hb1 : b1.inner[n].testBit k = b1.bitAt (8 * n + k) := by
      rw [Binvec.bitAt, hd, hm, List.getD_eq_getElem?_getD,
          List.getElem?_eq_getElem h₁, Option.getD_some]
    have hb2 : b2.inner[n].testBit k = b2.bitAt (8 * n + k) := by
      rw [Binvec.bitAt, hd, hm, List.getD_eq_getElem?_getD,
          List.getElem?_eq_getElem h₂, Option.getD_some]
    rw [hb1, hb2]
    by_cases hiL : 8 * n + k < L
    · have hg := h (8 * n + k) hiL
      rw [Binvec.get_eq_bitAt b1 _ hiL (by omega),
          Binvec.get_eq_bitAt b2 _ hiL (by omega)] at hg
      exact Option.some.inj hg
    · rw [h1p (8 * n + k) (by omega) (by omega),
          h2p (8 * n + k) (by omega) (by omega)]
  · have h256a : b1.inner[n] < 2 ^ k :=
      calc b1.inner[n] < 256 := h1w _ (List.getElem_mem h₁)
        _ = 2 ^ 8 := by norm_num
        _ ≤ 2 ^ k := Nat.pow_le_pow_right (by norm_num) (by omega)
    have h256b : b2.inner[n] < 2 ^ k :=
      calc b2.inner[n] < 256 := h2w _ (List.getElem_mem h₂)
        _ = 2 ^ 8 := by norm_num
        _ ≤ 2 ^ k := Nat.pow_le_pow_right (by norm_num) (by omega)
    rw [Nat.testBit_lt_two_pow h256a, Nat.testBit_lt_two_pow h256b]

/-- C1 (amended): after `fill v`, `is_all_one` returns `true` iff `v = true`
or `L = 0`, and `is_all_zero` returns `true` iff `v = false` or `L = 0`
(an `L = 0` container is vacuously both all-one and all-zero). -/
theorem c1_fill_all_one_all_zero {L N : Nat} (b : Binvec L N) (v : Bool)
    (hN : N = (L + 7) >>> 3) :
    ((b.fill v).is_all_one = true ↔ (v = true ∨ L = 0))
    ∧ ((b.fill v).is_all_zero = true ↔ (v = false ∨ L = 0)) := by
  rw [Binvec.is_all_one, Binvec.is_all_zero, Binvec.count_ones_fill b v hN,
      Binvec.count_zeros_fill b v hN]
  cases v
  · refine ⟨?_, ?_⟩
    · rw [if_neg (by simp), beq_iff_eq]
      constructor
      · intro h
        exact Or.inr h.symm
      · rintro (h | h)
        · exact absurd h (by simp)
        · exact h.symm
    · rw [if_neg (by simp)]
      simp
  · refine ⟨?_, ?_⟩
    · rw [if_pos rfl]
      simp
    · rw [if_pos rfl, beq_iff_eq]
      constructor
      · intro h
        exact Or.inr h.symm
      · rintro (h | h)
        · exact absurd h (by simp)
        · exact h.symm

/-- Witness for C1 at `L = 12`, `N = 2`, `v = true`. -/
theorem c1_witness :
    (((binvecM 12 false).fill true).is_all_one = true
      ↔ (true = true ∨ 12 = 0))
    ∧ (((binvecM 12 false).fill true).is_all_zero = true
      ↔ (true = false ∨ 12 = 0)) :=
  c1_fill_all_one_all_zero (binvecM 12 false) true rfl

/-- Counterexample for C1 as stated: at `L = 0` with `v = true`,
`is_all_one` after `fill true` is `true` (`count_ones() = 0 = L`), but the
claim's right-hand side `v = true ∧ L > 0` is false; likewise
`is_all_zero` is `true` while `v = false ∧ L > 0` is false. -/
theorem c1_counterexample :
    ¬((((binvecM 0 true).fill true).is_all_one = true
        ↔ (true = true ∧ 0 < 0))
      ∧ (((binvecM 0 true).fill true).is_all_zero = true
        ↔ (true = false ∧ 0 < 0))) := by
  decide

/-- C2: for every container reachable through the public interface
(constructed by the macro, mutated only by checked `set` and `fill`),
`count_ones + count_zeros = L`. -/
theorem c2_count_ones_add_count_zeros {L : Nat}
    (b : Binvec L ((L + 7) >>> 3)) (h : Binvec.Reachable L b) :
    b.count_ones + b.count_zeros = L := by
  have hpad := Binvec.reachable_padOk h
  have hle := Binvec.count_ones_le_of_padOk b hpad
  have hLN : L ≤ 8 * ((L + 7) >>> 3) := by
    have := ceil8_eq L
    omega
  rw [Binvec.count_zeros_eq b hle hLN]
  omega

/-- Witness for C2 at `L = 12` after one checked `set`. -/
theorem c2_witness :
    ((binvecM 12 false).set 3 true).1.count_ones
      + ((binvecM 12 false).set 3 true).1.count_zeros = 12 :=
  c2_count_ones_add_count_zeros _
    (Binvec.Reachable.set _ 3 true (Binvec.Reachable.init false))

/-- C3: with `N = ceil(L/8)`, every buffer bit at position `>= L` is 0
after construction, and this is preserved by `fill`, by checked `set` with
`i < L`, and by `set_unchecked` with `i < L`. -/
theorem c3_padding_invariant {L N : Nat} (hN : N = (L + 7) >>> 3) :
    (∀ v : Bool, (Binvec.new v : Binvec L N).padOk)
    ∧ (∀ (b : Binvec L N) (v : Bool), b.padOk → (b.fill v).padOk)
    ∧ (∀ (b : Binvec L N) (i : Nat) (v : Bool), i < L → b.padOk →
        (b.set i v).1.padOk)
    ∧ (∀ (b : Binvec L N) (i : Nat) (v : Bool) (b' : Binvec L N), i < L →
        b.padOk → b.set_unchecked i v = some b' → b'.padOk) := by
  have hN' : N = (L + 7) / 8 := by rw [hN, ceil8_eq]
  refine ⟨?_, ?_, ?_, ?_⟩
  · intro v j _ hLj
    rw [Binvec.bitAt_new v hN]
    simp [Nat.not_lt.mpr hLj]
  · intro b v _
    exact Binvec.padOk_fill b v hN
  · intro b i v hi hpad
    exact Binvec.padOk_set b i v hN hpad
  · intro b i v b' hi hpad hsome
    have h := Binvec.padOk_set_unchecked b i v (by omega) hi hpad
    rwa [hsome, Option.getD_some] at h

/-- Witness for C3 at `L = 12`, `N = 2`. -/
theorem c3_witness : ((binvecM 12 false).set 3 true).1.padOk :=
  (c3_padding_invariant rfl).2.2.1 (binvecM 12 false) 3 true (by decide)
    ((c3_padding_invariant rfl).1 false)

/-- C4: for every index `i >= L`, `get` returns the out-of-bounds signal
and `set` returns `IndexOutOfBounds` together with the unchanged container
state. -/
theorem c4_oob {L N : Nat} (b : Binvec L N) (i : Nat) (v : Bool)
    (hi : L ≤ i) :
    b.get i = none
    ∧ b.set i v = (b, Except.error IndexOutOfBounds.mk) :=
  ⟨by simp [Binvec.get, Nat.not_lt.mpr hi], Binvec.set_oob b i v hi⟩

/-- Witness for C4 at `L = 12`, `i = 20`. -/
theorem c4_witness :
    (binvecM 12 false).get 20 = none
    ∧ (binvecM 12 false).set 20 true
        = (binvecM 12 false, Except.error IndexOutOfBounds.mk) :=
  c4_oob (binvecM 12 false) 20 true (by decide)

/-- C5: for `i < L`, `set i v` succeeds, a subsequent `get i` returns
`some v`, and `get j` is unchanged for every other `j < L`. -/
theorem c5_set_get_roundtrip {L N : Nat} (b : Binvec L N) (i : Nat)
    (v : Bool) (hN : N = (L + 7) >>> 3) (hi : i < L) :
    (b.set i v).2 = Except.ok ()
    ∧ (b.set i v).1.get i = some v
    ∧ ∀ j, j < L → j ≠ i → (b.set i v).1.get j = b.get j := by
  have hN' : N = (L + 7) / 8 := by rw [hN, ceil8_eq]
  have hdiv : i / 8 < N := by omega
  refine ⟨by rw [Binvec.set_ok b i v hi], ?_, ?_⟩
  · rw [Binvec.get_eq_bitAt _ i hi hdiv, Binvec.bitAt_set b i v hi hdiv,
        if_pos rfl]
  · intro j hj hji
    have hdj : j / 8 < N := by omega
    rw [Binvec.get_eq_bitAt _ j hj hdj, Binvec.get_eq_bitAt b j hj hdj,
        Binvec.bitAt_set b i v hi hdiv, if_neg hji]

/-- Witness for C5 at `L = 12`, `i = 3`, checking the frame at `j = 5`. -/
theorem c5_witness :
    ((binvecM 12 false).set 3 true).2 = Except.ok ()
    ∧ ((binvecM 12 false).set 3 true).1.get 3 = some true
    ∧ ((binvecM 12 false).set 3 true).1.get 5 = (binvecM 12 false).get 5 :=
  ⟨(c5_set_get_roundtrip (binvecM 12 false) 3 true rfl (by decide)).1,
   (c5_set_get_roundtrip (binvecM 12 false) 3 true rfl (by decide)).2.1,
   (c5_set_get_roundtrip (binvecM 12 false) 3 true rfl (by decide)).2.2
     5 (by decide) (by decide)⟩

/-- C6: iterating a container of length `L` yields exactly the `L` values
`get 0, ..., get (L-1)` in ascending index order, and once exhausted every
further `next` yields the exhausted signal with the cursor unchanged. -/
theorem c6_iteration {L N : Nat} (b : Binvec L N)
    (hN : N = (L + 7) >>> 3) :
    (b.iter.steps L).1 = (List.range L).map (fun k => b.get k)
    ∧ (∀ m, ((b.iter.steps L).2).steps m
        = (List.replicate m none, (b.iter.steps L).2)) := by
  have hN' : N = (L + 7) / 8 := by rw [hN, ceil8_eq]
  have hsteps := Binvec.iter_steps_eq b hN L 0 (by omega)
  have hiter : b.iter = BinvecIter.mk b 0 := rfl
  constructor
  · rw [hiter, hsteps]
    simp only
    refine List.map_congr_left ?_
    intro k hk
    have hkL : k < L := List.mem_range.mp hk
    rw [Binvec.get_eq_bitAt b k hkL (by omega)]
    simp
  · intro m
    rw [hiter, hsteps]
    simp only
    exact Binvec.iter_steps_exhausted (BinvecIter.mk b (0 + L))
      (by show L ≤ 0 + L; omega) m

/-- Witness for C6 at `L = 3`, with two further `next` calls after
exhaustion. -/
theorem c6_witness :
    ((binvecM 3 true).iter.steps 3).1
      = (List.range 3).map (fun k => (binvecM 3 true).get k)
    ∧ (((binvecM 3 true).iter.steps 3).2).steps 2
        = (List.replicate 2 none, ((binvecM 3 true).iter.steps 3).2) :=
  ⟨(c6_iteration (binvecM 3 true) rfl).1,
   (c6_iteration (binvecM 3 true) rfl).2 2⟩

/-- C7: a freshly constructed container of length `L` has
`get i = some initial_value` for every `i < L`. -/
theorem c7_new_get (Len : Nat) (v : Bool) (i : Nat) (hi : i < Len) :
    (binvecM Len v).get i = some v := by
  have h := ceil8_eq Len
  have hdiv : i / 8 < (Len + 7) >>> 3 := by omega
  rw [Binvec.get_eq_bitAt _ i hi hdiv, Binvec.bitAt_binvecM]
  simp [hi]

/-- Witness for C7 at `L = 12`, `i = 5`. -/
theorem c7_witness : (binvecM 12 true).get 5 = some true :=
  c7_new_get 12 true 5 (by decide)

/-- C8: two containers of the same shape satisfying the padding invariant
are equal iff their bit content agrees on `[0, L)`; and packaged containers
of differing length are never equal. -/
theorem c8_equality {L N : Nat} (b1 b2 : Binvec L N)
    (h1p : b1.padOk) (h2p : b2.padOk) (h1w : b1.bytesWf)
    (h2w : b2.bytesWf) :
    (b1 = b2 ↔ ∀ i, i < L → b1.get i = b2.get i)
    ∧ (∀ (A B C D : Nat) (c1 : Binvec A B) (c2 : Binvec C D), A ≠ C →
        (⟨A, B, c1⟩ : Σ P Q, Binvec P Q) ≠ ⟨C, D, c2⟩) := by
  constructor
  · constructor
    · intro h i _
      rw [h]
    · exact eq_of_get_eq b1 b2 h1p h2p h1w h2w
  · intro A B C D c1 c2 hAC h
    exact hAC (congrArg Sigma.fst h)

/-- Witness for C8: two length-3 containers built by different `set`
sequences with the same resulting bits are equal, and packaged containers
of lengths 3 and 2 are unequal. -/
theorem c8_witness :
    ((binvecM 3 false).set 0 true).1
      = (((binvecM 3 true).set 1 false).1.set 2 false).1
    ∧ (⟨3, 1, binvecM 3 false⟩ : Σ P Q, Binvec P Q)
        ≠ ⟨2, 1, binvecM 2 false⟩ :=
  ⟨(c8_equality ((binvecM 3 false).set 0 true).1
      (((binvecM 3 true).set 1 false).1.set 2 false).1
      (by decide) (by decide) (by decide) (by decide)).1.mpr (by decide),
   (c8_equality (binvecM 3 false) (binvecM 3 false)
      (by decide) (by decide) (by decide) (by decide)).2
      3 1 2 1 (binvecM 3 false) (binvecM 2 false) (by decide)⟩

/-- C9: formatting renders a bracketed, comma-separated sequence of 0/1
characters in ascending index order (so length 0 renders exactly `[]`). -/
theorem c9_display {L N : Nat} (b : Binvec L N)
    (hN : N = (L + 7) >>> 3) :
    b.display = "[" ++ String.intercalate ", "
        ((List.range L).map (fun k => if b.bitAt k then "1" else "0"))
      ++ "]" :=
  display_eq_displaySpec b hN

/-- Witness for C9: a 3-bit container holding `true, false, true` built by
three `set` calls renders exactly `[1, 0, 1]`. -/
theorem c9_witness :
    ((((binvecM 3 false).set 0 true).1.set 1 false).1.set 2 true).1.display
      = "[1, 0, 1]" :=
  (c9_display ((((binvecM 3 false).set 0 true).1.set 1 false).1.set 2
      true).1 rfl).trans (by decide)

/-- C10: with `N = ceil(L/8)` and `i < L`, the unchecked accessors compute
a byte index `i >> 3` strictly below `N`, so both reach a byte inside the
backing buffer and never hit the out-of-range fault branch. -/
theorem c10_unchecked_safe {L N : Nat} (b : Binvec L N) (i : Nat) (v : Bool)
    (hN : N = (L + 7) >>> 3) (hi : i < L) :
    i >>> 3 < N
    ∧ (b.get_unchecked i).isSome
    ∧ (b.set_unchecked i v).isSome := by
  have hN' : N = (L + 7) / 8 := by rw [hN, ceil8_eq]
  have hdiv : i / 8 < N := by omega
  refine ⟨by rw [shiftRight3_eq]; exact hdiv, ?_,
    Binvec.set_unchecked_isSome b i v hdiv⟩
  rw [Binvec.get_unchecked_eq b i hdiv]
  rfl

/-- Witness for C10 at `L = 10`, `N = 2`, `i = 9`. -/
theorem c10_witness :
    (9 >>> 3 < 2)
    ∧ ((binvecM 10 true).get_unchecked 9).isSome
    ∧ ((binvecM 10 true).set_unchecked 9 false).isSome :=
  c10_unchecked_safe (binvecM 10 true) 9 false rfl (by decide)
